import Mathlib

/-!
Verification of the ofVec3d three-dimensional vector type (src/ofVec3d.h).
The C++ double components are modelled as real numbers; every definition
below is a direct transcription of the corresponding inline member function
of ofVec3d, keeping the source's guards, branch structure and evaluation
order.
-/

noncomputable section

open Real

/-- The vector type: three scalar fields x, y, z (ofVec3d). -/
@[ext]
structure ofVec3d where
  x : ℝ
  y : ℝ
  z : ℝ

namespace ofVec3d

/-- The default constructor ofVec3d() : all components 0. -/
def zeroVec : ofVec3d := ⟨0, 0, 0⟩

/-- DEG_TO_RAD constant (PI/180) used by the degree-based rotations. -/
def DEG_TO_RAD : ℝ := Real.pi / 180

/-- RAD_TO_DEG constant (180/PI) used by angle. -/
def RAD_TO_DEG : ℝ := 180 / Real.pi

/-- operator== : component-wise exact equality. -/
def vecEq (v w : ofVec3d) : Prop := v.x = w.x ∧ v.y = w.y ∧ v.z = w.z

/-- operator!= : component-wise disequality, joined by logical or. -/
def vecNe (v w : ofVec3d) : Prop := v.x ≠ w.x ∨ v.y ≠ w.y ∨ v.z ≠ w.z

/-- match(vec, tolerance) : fabs of each component difference strictly below
the tolerance, all three conjoined.  (The source method is named match;
that word is a keyword in Lean, hence the suffix.) -/
def matchTol (v w : ofVec3d) (tolerance : ℝ) : Prop :=
  |v.x - w.x| < tolerance ∧ |v.y - w.y| < tolerance ∧ |v.z - w.z| < tolerance

/-- operator+(const ofVec3d&) : component-wise sum. -/
def addVec (v w : ofVec3d) : ofVec3d := ⟨v.x + w.x, v.y + w.y, v.z + w.z⟩

/-- operator*(const double) : multiply each component by the scalar. -/
def mulScalar (v : ofVec3d) (f : ℝ) : ofVec3d := ⟨v.x * f, v.y * f, v.z * f⟩

/-- operator/(const ofVec3d&) : per component, divide when the divisor
component is nonzero, otherwise keep the component. -/
def divVec (v w : ofVec3d) : ofVec3d :=
  ⟨if w.x ≠ 0 then v.x / w.x else v.x,
   if w.y ≠ 0 then v.y / w.y else v.y,
   if w.z ≠ 0 then v.z / w.z else v.z⟩

/-- operator/=(const ofVec3d&) : post-state of the compound assignment;
each component is divided only when the divisor component is nonzero. -/
def divVecAssign (v w : ofVec3d) : ofVec3d :=
  ⟨if w.x ≠ 0 then v.x / w.x else v.x,
   if w.y ≠ 0 then v.y / w.y else v.y,
   if w.z ≠ 0 then v.z / w.z else v.z⟩

/-- operator/(const double) : if the scalar is 0 return a copy of the
vector, otherwise divide every component. -/
def divScalar (v : ofVec3d) (f : ℝ) : ofVec3d :=
  if f = 0 then ⟨v.x, v.y, v.z⟩ else ⟨v.x / f, v.y / f, v.z / f⟩

/-- operator/=(const double) : post-state; if the scalar is 0 the vector is
left untouched, otherwise every component is divided. -/
def divScalarAssign (v : ofVec3d) (f : ℝ) : ofVec3d :=
  if f = 0 then v else ⟨v.x / f, v.y / f, v.z / f⟩

/-- length() : Euclidean norm, sqrt of the sum of squared components. -/
def length (v : ofVec3d) : ℝ := Real.sqrt (v.x * v.x + v.y * v.y + v.z * v.z)

/-- lengthSquared() : sum of squared components. -/
def lengthSquared (v : ofVec3d) : ℝ := v.x * v.x + v.y * v.y + v.z * v.z

/-- dot(vec) : scalar product. -/
def dot (v w : ofVec3d) : ℝ := v.x * w.x + v.y * w.y + v.z * w.z

/-- getScaled(length) : rescale to the requested magnitude; when the
current length is not positive return ofVec3d(), the zero vector. -/
def getScaled (v : ofVec3d) (length : ℝ) : ofVec3d :=
  let l := Real.sqrt (v.x * v.x + v.y * v.y + v.z * v.z)
  if l > 0 then ⟨v.x / l * length, v.y / l * length, v.z / l * length⟩
  else zeroVec

/-- scale(length) : post-state of the mutating form; when the current
length is not positive the components are left unchanged. -/
def scale (v : ofVec3d) (length : ℝ) : ofVec3d :=
  let l := Real.sqrt (v.x * v.x + v.y * v.y + v.z * v.z)
  if l > 0 then ⟨v.x / l * length, v.y / l * length, v.z / l * length⟩
  else v

/-- getNormalized() : divide by the length when it is positive, else
return ofVec3d(), the zero vector. -/
def getNormalized (v : ofVec3d) : ofVec3d :=
  let l := Real.sqrt (v.x * v.x + v.y * v.y + v.z * v.z)
  if l > 0 then ⟨v.x / l, v.y / l, v.z / l⟩ else zeroVec

/-- normalize() : post-state of the mutating form; when the length is not
positive the components are left unchanged. -/
def normalize (v : ofVec3d) : ofVec3d :=
  let l := Real.sqrt (v.x * v.x + v.y * v.y + v.z * v.z)
  if l > 0 then ⟨v.x / l, v.y / l, v.z / l⟩ else v

/-- getLimited(max) : when the squared length exceeds max*max (and is
positive) multiply each component by max divided by the length, else copy
the components unchanged. -/
def getLimited (v : ofVec3d) (max : ℝ) : ofVec3d :=
  let ls := v.x * v.x + v.y * v.y + v.z * v.z
  if ls > max * max ∧ ls > 0 then
    ⟨v.x * (max / Real.sqrt ls), v.y * (max / Real.sqrt ls),
     v.z * (max / Real.sqrt ls)⟩
  else ⟨v.x, v.y, v.z⟩

/-- limit(max) : post-state of the mutating form, same guard and ratio. -/
def limit (v : ofVec3d) (max : ℝ) : ofVec3d :=
  let ls := v.x * v.x + v.y * v.y + v.z * v.z
  if ls > max * max ∧ ls > 0 then
    ⟨v.x * (max / Real.sqrt ls), v.y * (max / Real.sqrt ls),
     v.z * (max / Real.sqrt ls)⟩
  else v

/-- getInterpolated(pnt, p) : linear interpolation of each component,
this*(1-p) + pnt*p. -/
def getInterpolated (v pnt : ofVec3d) (p : ℝ) : ofVec3d :=
  ⟨v.x * (1 - p) + pnt.x * p, v.y * (1 - p) + pnt.y * p,
   v.z * (1 - p) + pnt.z * p⟩

/-- angleRad(vec) : arccos of the dot product of the two normalized
vectors. -/
def angleRad (v w : ofVec3d) : ℝ :=
  Real.arccos (dot (getNormalized v) (getNormalized w))

/-- angle(vec) : the radian angle converted to degrees via RAD_TO_DEG. -/
def angle (v w : ofVec3d) : ℝ :=
  Real.arccos (dot (getNormalized v) (getNormalized w)) * RAD_TO_DEG

/-- getRotatedRad(ax, ay, az) : Euler rotation, radians; the matrix
entries are transcribed verbatim from the source. -/
def getRotatedRad3 (v : ofVec3d) (ax ay az : ℝ) : ofVec3d :=
  let a := Real.cos ax
  let b := Real.sin ax
  let c := Real.cos ay
  let d := Real.sin ay
  let e := Real.cos az
  let f := Real.sin az
  ⟨c * e * v.x - c * f * v.y + d * v.z,
   (a * f + b * d * e) * v.x + (a * e - b * d * f) * v.y - b * c * v.z,
   (b * f - a * d * e) * v.x + (a * d * f + b * e) * v.y + a * c * v.z⟩

/-- getRotated(ax, ay, az) : Euler rotation, degrees; each angle is
multiplied by DEG_TO_RAD before taking cos and sin. -/
def getRotated3 (v : ofVec3d) (ax ay az : ℝ) : ofVec3d :=
  let a := Real.cos (DEG_TO_RAD * ax)
  let b := Real.sin (DEG_TO_RAD * ax)
  let c := Real.cos (DEG_TO_RAD * ay)
  let d := Real.sin (DEG_TO_RAD * ay)
  let e := Real.cos (DEG_TO_RAD * az)
  let f := Real.sin (DEG_TO_RAD * az)
  ⟨c * e * v.x - c * f * v.y + d * v.z,
   (a * f + b * d * e) * v.x + (a * e - b * d * f) * v.y - b * c * v.z,
   (b * f - a * d * e) * v.x + (a * d * f + b * e) * v.y + a * c * v.z⟩

/-- rotate(ax, ay, az) : post-state of the mutating Euler rotation in
degrees; nx, ny, nz are computed from the old components, then stored. -/
def rotate3 (v : ofVec3d) (ax ay az : ℝ) : ofVec3d :=
  let a := Real.cos (DEG_TO_RAD * ax)
  let b := Real.sin (DEG_TO_RAD * ax)
  let c := Real.cos (DEG_TO_RAD * ay)
  let d := Real.sin (DEG_TO_RAD * ay)
  let e := Real.cos (DEG_TO_RAD * az)
  let f := Real.sin (DEG_TO_RAD * az)
  let nx := c * e * v.x - c * f * v.y + d * v.z
  let ny := (a * f + b * d * e) * v.x + (a * e - b * d * f) * v.y - b * c * v.z
  let nz := (b * f - a * d * e) * v.x + (a * d * f + b * e) * v.y + a * c * v.z
  ⟨nx, ny, nz⟩

/-- getRotated(angle, axis) : Rodrigues rotation about an arbitrary axis,
degrees; the axis is normalized first. -/
def getRotatedAxis (v : ofVec3d) (angle : ℝ) (axis : ofVec3d) : ofVec3d :=
  let ax := getNormalized axis
  let a := angle * DEG_TO_RAD
  let sina := Real.sin a
  let cosa := Real.cos a
  let cosb := 1 - cosa
  ⟨v.x * (ax.x * ax.x * cosb + cosa)
     + v.y * (ax.x * ax.y * cosb - ax.z * sina)
     + v.z * (ax.x * ax.z * cosb + ax.y * sina),
   v.x * (ax.y * ax.x * cosb + ax.z * sina)
     + v.y * (ax.y * ax.y * cosb + cosa)
     + v.z * (ax.y * ax.z * cosb - ax.x * sina),
   v.x * (ax.z * ax.x * cosb - ax.y * sina)
     + v.y * (ax.z * ax.y * cosb + ax.x * sina)
     + v.z * (ax.z * ax.z * cosb + cosa)⟩

/-- rotate(angle, axis) : post-state of the mutating Rodrigues rotation;
nx, ny, nz computed from the old components, then stored. -/
def rotateAxis (v : ofVec3d) (angle : ℝ) (axis : ofVec3d) : ofVec3d :=
  let ax := getNormalized axis
  let a := angle * DEG_TO_RAD
  let sina := Real.sin a
  let cosa := Real.cos a
  let cosb := 1 - cosa
  let nx := v.x * (ax.x * ax.x * cosb + cosa)
    + v.y * (ax.x * ax.y * cosb - ax.z * sina)
    + v.z * (ax.x * ax.z * cosb + ax.y * sina)
  let ny := v.x * (ax.y * ax.x * cosb + ax.z * sina)
    + v.y * (ax.y * ax.y * cosb + cosa)
    + v.z * (ax.y * ax.z * cosb - ax.x * sina)
  let nz := v.x * (ax.z * ax.x * cosb - ax.y * sina)
    + v.y * (ax.z * ax.y * cosb + ax.x * sina)
    + v.z * (ax.z * ax.z * cosb + cosa)
  ⟨nx, ny, nz⟩

/-- getMapped(origin, vx, vy, vz) : affine change of basis,
origin + x*vx + y*vy + z*vz, component by component. -/
def getMapped (v origin vx vy vz : ofVec3d) : ofVec3d :=
  ⟨origin.x + v.x * vx.x + v.y * vy.x + v.z * vz.x,
   origin.y + v.x * vx.y + v.y * vy.y + v.z * vz.y,
   origin.z + v.x * vx.z + v.y * vy.z + v.z * vz.z⟩

/-- map(origin, vx, vy, vz) : post-state of the mutating form; xmap and
ymap are computed first, z is assigned from the old components, then x
and y receive the stored values. -/
def map (v origin vx vy vz : ofVec3d) : ofVec3d :=
  let xmap := origin.x + v.x * vx.x + v.y * vy.x + v.z * vz.x
  let ymap := origin.y + v.x * vx.y + v.y * vy.y + v.z * vz.y
  let znew := origin.z + v.x * vx.z + v.y * vy.z + v.z * vz.z
  ⟨xmap, ymap, znew⟩

end ofVec3d

open ofVec3d

/-- Specification-side single-axis rotation about the x axis (right-hand
rule), used to state the Euler-composition claim: y cos - z sin into y,
y sin + z cos into z. -/
def specRotX (a : ℝ) (v : ofVec3d) : ofVec3d :=
  ⟨v.x, v.y * Real.cos a - v.z * Real.sin a, v.y * Real.sin a + v.z * Real.cos a⟩

/-- Specification-side single-axis rotation about the y axis (right-hand
rule). -/
def specRotY (a : ℝ) (v : ofVec3d) : ofVec3d :=
  ⟨v.x * Real.cos a + v.z * Real.sin a, v.y,
   -(v.x * Real.sin a) + v.z * Real.cos a⟩

/-- Specification-side single-axis rotation about the z axis (right-hand
rule). -/
def specRotZ (a : ℝ) (v : ofVec3d) : ofVec3d :=
  ⟨v.x * Real.cos a - v.y * Real.sin a, v.x * Real.sin a + v.y * Real.cos a, v.z⟩

/-- Sanity check that the specification-side axis rotations agree with the
code's own Euler rotation when the other two angles are zero. -/
theorem specRot_agrees_single_axis (v : ofVec3d) (a : ℝ) :
    getRotatedRad3 v a 0 0 = specRotX a v ∧
    getRotatedRad3 v 0 a 0 = specRotY a v ∧
    getRotatedRad3 v 0 0 a = specRotZ a v := by
  refine ⟨?_, ?_, ?_⟩ <;>
    · simp only [getRotatedRad3, specRotX, specRotY, specRotZ,
        Real.cos_zero, Real.sin_zero]
      ext <;> ring

/-- C3: vector-by-vector division is component-wise, except that a zero
divisor component leaves the corresponding component unchanged; dividing
by the zero vector returns the vector itself, and the compound assignment
agrees with the binary operator. -/
theorem div_by_vector_componentwise (v w : ofVec3d) :
    divVec v w = ⟨if w.x = 0 then v.x else v.x / w.x,
                  if w.y = 0 then v.y else v.y / w.y,
                  if w.z = 0 then v.z else v.z / w.z⟩ ∧
    divVec v zeroVec = v ∧ divVecAssign v w = divVec v w := by
  refine ⟨?_, ?_, rfl⟩
  · by_cases hx : w.x = 0 <;> by_cases hy : w.y = 0 <;> by_cases hz : w.z = 0 <;>
      simp [divVec, hx, hy, hz]
  · simp [divVec, zeroVec]

/-- C4: dividing by the scalar zero is a no-op for both the binary
operator and the compound assignment. -/
theorem div_by_zero_scalar_noop (v : ofVec3d) :
    divScalar v 0 = v ∧ divScalarAssign v 0 = v := by
  constructor <;> simp [divScalar, divScalarAssign]

/-- C9: linear interpolation is this*(1-p) + pnt*p expressed with the
vector operators, and it recovers the endpoints exactly at p = 0 and
p = 1. -/
theorem interpolation_endpoints (a b : ofVec3d) (p : ℝ) :
    getInterpolated a b p = addVec (mulScalar a (1 - p)) (mulScalar b p) ∧
    getInterpolated a b 0 = a ∧ getInterpolated a b 1 = b := by
  refine ⟨rfl, ?_, ?_⟩ <;> · simp [getInterpolated]

/-- The sum of squared components is nonnegative. -/
lemma sumsq_nonneg (v : ofVec3d) : 0 ≤ v.x * v.x + v.y * v.y + v.z * v.z :=
  add_nonneg (add_nonneg (mul_self_nonneg v.x) (mul_self_nonneg v.y))
    (mul_self_nonneg v.z)

/-- The sum of squared components vanishes exactly on the zero vector. -/
lemma sumsq_eq_zero_iff (v : ofVec3d) :
    v.x * v.x + v.y * v.y + v.z * v.z = 0 ↔ v = zeroVec := by
  constructor
  · intro h
    have hx : v.x * v.x = 0 := by
      nlinarith [mul_self_nonneg v.x, mul_self_nonneg v.y, mul_self_nonneg v.z]
    have hy : v.y * v.y = 0 := by
      nlinarith [mul_self_nonneg v.x, mul_self_nonneg v.y, mul_self_nonneg v.z]
    have hz : v.z * v.z = 0 := by
      nlinarith [mul_self_nonneg v.x, mul_self_nonneg v.y, mul_self_nonneg v.z]
    ext
    · simpa [zeroVec] using mul_self_eq_zero.mp hx
    · simpa [zeroVec] using mul_self_eq_zero.mp hy
    · simpa [zeroVec] using mul_self_eq_zero.mp hz
  · intro h
    rw [h]
    simp [zeroVec]

/-- Scaling every component by r scales the length by the absolute value
of r. -/
lemma length_components_mul (v : ofVec3d) (r : ℝ) :
    length ⟨v.x * r, v.y * r, v.z * r⟩ = |r| * length v := by
  simp only [length]
  rw [show v.x * r * (v.x * r) + v.y * r * (v.y * r) + v.z * r * (v.z * r)
      = (v.x * v.x + v.y * v.y + v.z * v.z) * (r * r) by ring,
    Real.sqrt_mul (sumsq_nonneg v), Real.sqrt_mul_self_eq_abs, mul_comm]

/-- The length is positive exactly off the zero vector. -/
lemma length_pos_iff (v : ofVec3d) : 0 < length v ↔ v ≠ zeroVec := by
  rw [length, Real.sqrt_pos]
  constructor
  · intro h
    exact fun hv => absurd ((sumsq_eq_zero_iff v).mpr hv) (ne_of_gt h)
  · intro h
    rcases lt_or_eq_of_le (sumsq_nonneg v) with h' | h'
    · exact h'
    · exact absurd ((sumsq_eq_zero_iff v).mp h'.symm) h

/-- C5: every mutating transform agrees with its non-mutating counterpart:
scale with getScaled (for every scalar, zero and negative included), the
Euler rotate and the axis rotate with the corresponding getRotated, and
map with getMapped. -/
theorem mutating_nonmutating_agree (v origin vx vy vz axis : ofVec3d)
    (k ax ay az ang : ℝ) :
    getScaled v k = scale v k ∧
    getRotated3 v ax ay az = rotate3 v ax ay az ∧
    getRotatedAxis v ang axis = rotateAxis v ang axis ∧
    getMapped v origin vx vy vz = map v origin vx vy vz := by
  refine ⟨?_, rfl, rfl, rfl⟩
  by_cases hl : Real.sqrt (v.x * v.x + v.y * v.y + v.z * v.z) > 0
  · simp [getScaled, scale, hl]
  · have h0 : v.x * v.x + v.y * v.y + v.z * v.z ≤ 0 := by
      by_contra hpos
      push_neg at hpos
      exact hl (Real.sqrt_pos.mpr hpos)
    have hv : v = zeroVec :=
      (sumsq_eq_zero_iff v).mp (le_antisymm h0 (sumsq_nonneg v))
    subst hv
    norm_num [getScaled, scale, zeroVec]

/-- C6: getNormalized and normalize produce a vector of length exactly 1
on every nonzero vector, and map the zero vector to the zero vector. -/
theorem normalize_unit_length (v : ofVec3d) :
    (v ≠ zeroVec → length (getNormalized v) = 1 ∧ length (normalize v) = 1) ∧
    (v = zeroVec → getNormalized v = zeroVec ∧ normalize v = zeroVec) := by
  constructor
  · intro hv
    have hl : 0 < length v := (length_pos_iff v).mpr hv
    have hl' : Real.sqrt (v.x * v.x + v.y * v.y + v.z * v.z) > 0 := hl
    have hno : getNormalized v =
        ⟨v.x * (length v)⁻¹, v.y * (length v)⁻¹, v.z * (length v)⁻¹⟩ := by
      simp only [getNormalized, if_pos hl']
      ext <;> simp [ofVec3d.length, div_eq_mul_inv]
    have key : length (getNormalized v) = 1 := by
      rw [hno, length_components_mul, abs_inv, abs_of_pos hl,
        inv_mul_cancel₀ (ne_of_gt hl)]
    have hsame : ofVec3d.normalize v = getNormalized v := by
      simp only [ofVec3d.normalize, getNormalized, if_pos hl']
    exact ⟨key, by rw [hsame]; exact key⟩
  · intro hv
    subst hv
    norm_num [getNormalized, ofVec3d.normalize, zeroVec]

/-- C6 witness: the vector (3, 4, 0) is nonzero and normalizes to a vector
of length exactly 1. -/
theorem normalize_unit_length_witness :
    ofVec3d.mk 3 4 0 ≠ zeroVec ∧ length (getNormalized ⟨3, 4, 0⟩) = 1 := by
  have hne : ofVec3d.mk 3 4 0 ≠ zeroVec := by
    norm_num [zeroVec, ofVec3d.mk.injEq]
  exact ⟨hne, ((normalize_unit_length ⟨3, 4, 0⟩).1 hne).1⟩

/-- Converting 90 degrees with DEG_TO_RAD gives pi over two. -/
lemma deg_to_rad_ninety : DEG_TO_RAD * 90 = Real.pi / 2 := by
  rw [DEG_TO_RAD]
  ring

/-- Converting 0 degrees with DEG_TO_RAD gives 0. -/
lemma deg_to_rad_zero : DEG_TO_RAD * 0 = 0 := by
  rw [DEG_TO_RAD]
  ring

/-- C1 counterexample: rotating (1,0,0) by 90 degrees about x, then 90
degrees about y, then 0 degrees about z, with the x rotation applied to
the vector first, yields (0,0,-1); the code's getRotated(90,90,0) yields
(0,1,0) instead, so the claimed composition order is wrong. -/
theorem euler_rotation_order_counterexample :
    getRotated3 ⟨1, 0, 0⟩ 90 90 0 ≠
      specRotZ (DEG_TO_RAD * 0)
        (specRotY (DEG_TO_RAD * 90) (specRotX (DEG_TO_RAD * 90) ⟨1, 0, 0⟩)) := by
  simp only [getRotated3, specRotX, specRotY, specRotZ, deg_to_rad_ninety,
    deg_to_rad_zero, Real.cos_pi_div_two, Real.sin_pi_div_two, Real.cos_zero,
    Real.sin_zero]
  intro h
  have hy := congrArg ofVec3d.y h
  norm_num at hy

/-- C1 amended: the Euler rotation getRotated(ax, ay, az) (and the
mutating rotate, and the radian variant) applies the single-axis
rotations to the vector in the order z first, then y, then x; that is,
the matrix product is Rx times Ry times Rz, equivalently the intrinsic
rotation sequence about x, then the new y, then the new z. -/
theorem euler_rotation_order (v : ofVec3d) (ax ay az : ℝ) :
    getRotated3 v ax ay az =
      specRotX (DEG_TO_RAD * ax)
        (specRotY (DEG_TO_RAD * ay) (specRotZ (DEG_TO_RAD * az) v)) ∧
    rotate3 v ax ay az = getRotated3 v ax ay az ∧
    getRotatedRad3 v ax ay az =
      specRotX ax (specRotY ay (specRotZ az v)) := by
  refine ⟨?_, rfl, ?_⟩ <;>
    · simp only [getRotated3, getRotatedRad3, specRotX, specRotY, specRotZ]
      ext <;> ring

/-- C2 counterexample: calling angle or angleRad on the zero vector does
not feed an out-of-domain value to arccos: the guarded normalization
returns the zero vector, the dot product handed to arccos is exactly 0,
and the results are pi over two radians and 90 degrees, not NaN. -/
theorem angle_zero_vector_counterexample :
    dot (getNormalized zeroVec) (getNormalized ⟨1, 0, 0⟩) = 0 ∧
    angleRad zeroVec ⟨1, 0, 0⟩ = Real.pi / 2 ∧
    angle zeroVec ⟨1, 0, 0⟩ = 90 := by
  have hz : getNormalized zeroVec = zeroVec := by
    norm_num [getNormalized, zeroVec]
  have hd : dot (getNormalized zeroVec) (getNormalized ⟨1, 0, 0⟩) = 0 := by
    rw [hz]
    simp [ofVec3d.dot, zeroVec]
  refine ⟨hd, ?_, ?_⟩
  · rw [angleRad, hd, Real.arccos_zero]
  · rw [angle, hd, Real.arccos_zero, RAD_TO_DEG]
    field_simp
    ring

/-- C2 amended: the angle between the zero vector and any vector w, on
either side, is well defined: angleRad returns pi over two and angle
returns 90 degrees, because the guarded normalization maps the zero
vector to itself, the dot product is then 0, and arccos 0 is pi over
two. -/
theorem angle_zero_vector (w : ofVec3d) :
    angleRad zeroVec w = Real.pi / 2 ∧ angle zeroVec w = 90 ∧
    angleRad w zeroVec = Real.pi / 2 ∧ angle w zeroVec = 90 := by
  have hz : getNormalized zeroVec = zeroVec := by
    norm_num [getNormalized, zeroVec]
  have hd1 : ∀ u : ofVec3d, dot zeroVec u = 0 := by
    intro u
    simp [ofVec3d.dot, zeroVec]
  have hd2 : ∀ u : ofVec3d, dot u zeroVec = 0 := by
    intro u
    simp [ofVec3d.dot, zeroVec]
  have hdeg : Real.pi / 2 * RAD_TO_DEG = 90 := by
    rw [RAD_TO_DEG]
    field_simp
    ring
  refine ⟨?_, ?_, ?_, ?_⟩
  · rw [angleRad, hz, hd1, Real.arccos_zero]
  · rw [angle, hz, hd1, Real.arccos_zero, hdeg]
  · rw [angleRad, hz, hd2, Real.arccos_zero]
  · rw [angle, hz, hd2, Real.arccos_zero, hdeg]

/-- The square root of 4 is 2. -/
lemma sqrt_four : Real.sqrt 4 = 2 := by
  rw [show (4:ℝ) = 2 ^ 2 by norm_num, Real.sqrt_sq (by norm_num : (0:ℝ) ≤ 2)]

/-- C7 counterexample: with a negative bound the rescaled vector does not
have length equal to max.  For v = (2,0,0) and max = -1 the guard fires
(4 exceeds 1), the result is (-1,0,0), and its length is 1, not -1. -/
theorem limit_negative_max_counterexample :
    lengthSquared ⟨2, 0, 0⟩ > (-1 : ℝ) * (-1) ∧
    getLimited ⟨2, 0, 0⟩ (-1) = ⟨-1, 0, 0⟩ ∧
    length (getLimited ⟨2, 0, 0⟩ (-1)) = 1 ∧
    length (getLimited ⟨2, 0, 0⟩ (-1)) ≠ -1 := by
  have h2 : getLimited ⟨2, 0, 0⟩ (-1) = ⟨-1, 0, 0⟩ := by
    simp only [getLimited]
    rw [if_pos (by norm_num)]
    ext <;> norm_num [sqrt_four]
  have h3 : length (getLimited ⟨2, 0, 0⟩ (-1)) = 1 := by
    rw [h2]
    norm_num [ofVec3d.length]
  refine ⟨by norm_num [lengthSquared], h2, h3, ?_⟩
  rw [h3]
  norm_num

/-- C7 amended: when the squared length exceeds max*max, getLimited
rescales to a vector whose length is the absolute value of max (equal to
max whenever max is nonnegative); otherwise the vector is returned
unchanged; the mutating limit agrees with getLimited everywhere. -/
theorem limit_rescales_to_abs_max (v : ofVec3d) (max : ℝ) :
    (max * max < lengthSquared v → length (getLimited v max) = |max|) ∧
    (¬ max * max < lengthSquared v → getLimited v max = v) ∧
    limit v max = getLimited v max := by
  refine ⟨?_, ?_, rfl⟩
  · intro h
    have hls : 0 < lengthSquared v := lt_of_le_of_lt (mul_self_nonneg max) h
    have hcond : v.x * v.x + v.y * v.y + v.z * v.z > max * max ∧
        v.x * v.x + v.y * v.y + v.z * v.z > 0 := ⟨h, hls⟩
    have hlim : getLimited v max =
        ⟨v.x * (max / Real.sqrt (v.x * v.x + v.y * v.y + v.z * v.z)),
         v.y * (max / Real.sqrt (v.x * v.x + v.y * v.y + v.z * v.z)),
         v.z * (max / Real.sqrt (v.x * v.x + v.y * v.y + v.z * v.z))⟩ := by
      simp only [getLimited, if_pos hcond]
    have hsq : 0 < Real.sqrt (v.x * v.x + v.y * v.y + v.z * v.z) :=
      Real.sqrt_pos.mpr hls
    rw [hlim, length_components_mul, abs_div, abs_of_pos hsq]
    simp only [ofVec3d.length]
    rw [div_mul_cancel₀ _ (ne_of_gt hsq)]
  · intro h
    have hnc : ¬ (v.x * v.x + v.y * v.y + v.z * v.z > max * max ∧
        v.x * v.x + v.y * v.y + v.z * v.z > 0) := fun hc => h hc.1
    simp only [getLimited, if_neg hnc]

/-- C7 witness: for v = (3,4,0) and max = 1 the guard fires and the
limited vector has length exactly 1. -/
theorem limit_rescales_to_abs_max_witness :
    (1 : ℝ) * 1 < lengthSquared ⟨3, 4, 0⟩ ∧
    length (getLimited ⟨3, 4, 0⟩ 1) = 1 := by
  have h : (1 : ℝ) * 1 < lengthSquared ⟨3, 4, 0⟩ := by
    norm_num [lengthSquared]
  refine ⟨h, ?_⟩
  have h2 := (limit_rescales_to_abs_max ⟨3, 4, 0⟩ 1).1 h
  simpa using h2

/-- C8: match compares the three components against the tolerance
independently and strictly, and on the spec's example pair it accepts at
tolerance 0.1 and rejects at tolerance 0.01. -/
theorem match_per_axis_thresholds (v w : ofVec3d) (t : ℝ) :
    (matchTol v w t ↔
      |v.x - w.x| < t ∧ |v.y - w.y| < t ∧ |v.z - w.z| < t) ∧
    matchTol ⟨40, 20, 70⟩ ⟨40.01, 19.999, 70.05⟩ 0.1 ∧
    ¬ matchTol ⟨40, 20, 70⟩ ⟨40.01, 19.999, 70.05⟩ 0.01 := by
  refine ⟨Iff.rfl, ?_, ?_⟩
  · simp only [matchTol, abs_sub_lt_iff]
    norm_num
  · simp only [matchTol, abs_sub_lt_iff]
    norm_num

/-- A double value under IEEE comparison semantics: either NaN (none) or
an ordinary value. -/
abbrev DVal := Option ℝ

/-- IEEE equality on doubles: false whenever either operand is NaN,
ordinary equality otherwise. -/
def deq : DVal → DVal → Prop
  | Option.some a, Option.some b => a = b
  | _, _ => False

/-- IEEE inequality on doubles: true whenever either operand is NaN,
ordinary disequality otherwise. -/
def dne : DVal → DVal → Prop
  | Option.some a, Option.some b => a ≠ b
  | _, _ => True

/-- The vector type with IEEE-comparison components, used to settle the
equality/inequality claim in the presence of NaN components. -/
structure ofVec3dIEEE where
  x : DVal
  y : DVal
  z : DVal

/-- operator== under IEEE component semantics. -/
def vecEqIEEE (v w : ofVec3dIEEE) : Prop :=
  deq v.x w.x ∧ deq v.y w.y ∧ deq v.z w.z

/-- operator!= under IEEE component semantics. -/
def vecNeIEEE (v w : ofVec3dIEEE) : Prop :=
  dne v.x w.x ∨ dne v.y w.y ∨ dne v.z w.z

/-- Per component, IEEE inequality is the negation of IEEE equality, NaN
included. -/
lemma dne_iff_not_deq (a b : DVal) : dne a b ↔ ¬ deq a b := by
  cases a <;> cases b <;> simp [deq, dne]

/-- C10: the inequality operator is the exact logical negation of the
equality operator, both in the real-valued model and in the IEEE model
whose components may be NaN. -/
theorem neq_negates_eq (v w : ofVec3d) (p q : ofVec3dIEEE) :
    (vecNe v w ↔ ¬ vecEq v w) ∧ (vecNeIEEE p q ↔ ¬ vecEqIEEE p q) := by
  constructor
  · rw [vecNe, vecEq]
    tauto
  · rw [vecNeIEEE, vecEqIEEE]
    simp only [dne_iff_not_deq]
    tauto
